import Mathlib

/-!
Verification development for the quahog patch-management extension
(`src/quahog.py`).  Byte strings of the Python source are modelled as
`List Char` (every byte is one `Char`); the Python string primitives used by
the source (`splitlines`, `rstrip`, `lstrip`, `strip`, `startswith`,
`removeprefix`) are embedded below, together with the two regular
expressions the source builds (`PATCHDESC_RE` and the path-canonicalization
pattern) as explicit backtracking matchers with Python `re` semantics
(leftmost match, greedy quantifiers, alternatives tried left to right).
-/

namespace Quahog

/-- Python's byte-level whitespace set, as used by `\s`, `rstrip`, `strip`. -/
def pyIsSpace (c : Char) : Bool :=
  c == ' ' || c == '\t' || c == '\n' || c == '\r' || c == '\x0b' || c == '\x0c'

/-- A byte that is not a line terminator (`\r` or `\n`). -/
def nonTerm (c : Char) : Bool := !(c == '\n' || c == '\r')

/-- Python `bytes.lstrip()` (no argument: strip leading whitespace). -/
def pyLstrip (l : List Char) : List Char := l.dropWhile pyIsSpace

/-- Python `bytes.rstrip()` (no argument: strip trailing whitespace). -/
def pyRstrip (l : List Char) : List Char := (l.reverse.dropWhile pyIsSpace).reverse

/-- Python `bytes.strip()`. -/
def pyStrip (l : List Char) : List Char := pyRstrip (pyLstrip l)

/-- Python `bytes.startswith(p)`. -/
def startsWith : List Char → List Char → Bool
  | [], _ => true
  | _ :: _, [] => false
  | p :: ps, c :: cs => p == c && startsWith ps cs

/-- Worker for Python `bytes.splitlines(keepends=True)`: `acc` holds the
characters of the current (unterminated) line in reverse.  Line boundaries
for bytes are `\n`, `\r` and the pair `\r\n`. -/
def slGo (acc : List Char) : List Char → List (List Char)
  | [] => if acc.isEmpty then [] else [acc.reverse]
  | c :: t =>
    if c = '\n' then (acc.reverse ++ ['\n']) :: slGo [] t
    else if c = '\r' then
      match t with
      | [] => [acc.reverse ++ ['\r']]
      | '\n' :: t2 => (acc.reverse ++ ['\r', '\n']) :: slGo [] t2
      | c2 :: t2 => (acc.reverse ++ ['\r']) :: slGo [] (c2 :: t2)
    else slGo (c :: acc) t

/-- Python `bytes.splitlines(keepends=True)`. -/
def splitlinesKeep (s : List Char) : List (List Char) := slGo [] s

/-- Worker for Python `bytes.splitlines()` (without keepends). -/
def pnsGo (acc : List Char) : List Char → List (List Char)
  | [] => if acc.isEmpty then [] else [acc.reverse]
  | c :: t =>
    if c = '\n' then acc.reverse :: pnsGo [] t
    else if c = '\r' then
      match t with
      | [] => [acc.reverse]
      | '\n' :: t2 => acc.reverse :: pnsGo [] t2
      | c2 :: t2 => acc.reverse :: pnsGo [] (c2 :: t2)
    else pnsGo (c :: acc) t

/-- Python `bytes.splitlines()` (terminators removed). -/
def pySplitlines (s : List Char) : List (List Char) := pnsGo [] s


/-! ## `_separatepatchdescription` (src/quahog.py lines 65-76)

The source splits the content into lines (keepends), appends an empty
sentinel line, and scans: a line starting with `--- `, `diff --git` or
`rename from` breaks at that line; a line starting with `Index: ` breaks
two lines further down; every other line is right-stripped and collected
as description.  The diff part is the joined remaining lines, left-stripped;
the description is the collected lines newline-joined and right-stripped. -/

/-- A line on which the description scan of `_separatepatchdescription`
breaks (the line itself starts the diff). -/
def sepBreakLine (l : List Char) : Bool :=
  startsWith "--- ".data l || startsWith "diff --git".data l ||
    startsWith "rename from".data l

/-- A line starting with `Index: ` (break, skipping this line and the next). -/
def sepIndexLine (l : List Char) : Bool := startsWith "Index: ".data l

/-- Python `b'\n'.join(parts)`. -/
def nlJoin : List (List Char) → List Char
  | [] => []
  | [x] => x
  | x :: rest => x ++ '\n' :: nlJoin rest

/-- `b'\n'.join(desclines).rstrip()` over the collected description lines
(held in reverse). -/
def sepFinish (acc : List (List Char)) : List Char :=
  pyRstrip (nlJoin acc.reverse)

/-- The scan loop of `_separatepatchdescription`. -/
def sepGo : List (List Char) → List (List Char) → List Char × List Char
  | [], acc => ([], sepFinish acc)
  | line :: rest, acc =>
    if sepBreakLine line then (pyLstrip (List.flatten (line :: rest)), sepFinish acc)
    else if sepIndexLine line then (pyLstrip (List.flatten (rest.drop 1)), sepFinish acc)
    else sepGo rest (pyRstrip line :: acc)

/-- `_separatepatchdescription(patchcontent)`: returns `(diff body, description)`. -/
def separatepatchdescription (content : List Char) : List Char × List Char :=
  sepGo (splitlinesKeep content ++ [[]]) []

/-- The normalization `_separatepatchdescription` applies to the
description block: each line right-stripped, newline-joined, and the whole
right-stripped. -/
def descNormalize (l : List Char) : List Char :=
  pyRstrip (nlJoin ((splitlinesKeep l).map pyRstrip))

/-! ## `_canonicalizepatchcontent` (src/quahog.py lines 79-81)

`re.sub(rb'(^|\n)(---|\+\+\+)(\s)(\S*/)?(' + rootpath + rb')', rb'\1\2\3\4',
content)`: a backtracking matcher for this exact pattern.  Group 4
(`(\S*/)?`) is greedy, so candidate lengths are tried longest first; the
replacement keeps groups 1-4 and drops group 5 (the root path).  Python 3.5+
substitutes the empty string for an unparticipating group 4.  The source
interpolates `rootpath` into the pattern without `re.escape`, so the
embedding matches it literally; this is exact for root paths free of `re`
metacharacters (see `plainChar`), which universally quantified theorems
assume. -/

/-- A byte that is not a Python `re` metacharacter, so that the unescaped
interpolation of the root path into the pattern matches it literally. -/
def plainChar (c : Char) : Bool :=
  !(['.', '^', '$', '*', '+', '?', '\x7b', '\x7d', '[', ']', '\\', '|', '(', ')'].contains c)

/-- Greedy search for group 4 `(\S*/)?` followed by the literal `root`:
candidate lengths are tried from `fuel` downward; `some L` means group 4
matched the first `L` characters of `s` (`L = 0`: group absent) and `root`
matches right after. -/
def findG4 (root s : List Char) : ℕ → Option ℕ
  | 0 => if startsWith root s then some 0 else none
  | L + 1 =>
    if (s.take (L + 1)).all (fun c => !pyIsSpace c) && (s.get? L == some '/')
        && startsWith root (s.drop (L + 1)) then
      some (L + 1)
    else findG4 root s L

/-- Group 2 of the pattern: `---` or `+++` (alternatives in order). -/
def matchG2 (s : List Char) : Option (List Char × List Char) :=
  if startsWith "---".data s then some ("---".data, s.drop 3)
  else if startsWith "+++".data s then some ("+++".data, s.drop 3)
  else none

/-- Match groups 2-5 of the pattern at the start of `s`: returns
`(group2, group3 char, group4 text, remainder after group5)`. -/
def matchTail (root s : List Char) : Option (List Char × Char × List Char × List Char) :=
  match matchG2 s with
  | none => none
  | some (g2, s2) =>
    match s2 with
    | [] => none
    | c3 :: s3 =>
      if pyIsSpace c3 then
        match findG4 root s3 s3.length with
        | none => none
        | some L => some (g2, c3, s3.take L, s3.drop (L + root.length))
      else none

/-- The `\n` alternative of group 1: consume a leading `\n`, then match
groups 2-5. -/
def nlAlt (root : List Char) :
    List Char → Option (List Char × List Char × Char × List Char × List Char)
  | '\n' :: t =>
    match matchTail root t with
    | some (g2, c3, g4, rest) => some (['\n'], g2, c3, g4, rest)
    | none => none
  | _ => none

/-- Match the whole pattern at the current position: group 1 is `^` (only
when `atStart`, tried first) or a consumed `\n`.  Returns
`(group1, group2, group3 char, group4 text, remainder)`. -/
def matchCore (root : List Char) (atStart : Bool) (s : List Char) :
    Option (List Char × List Char × Char × List Char × List Char) :=
  match (if atStart then matchTail root s else none) with
  | some (g2, c3, g4, rest) => some ([], g2, c3, g4, rest)
  | none => nlAlt root s

/-- The `re.sub` scan: try a match at the current position; on success emit
the replacement `\1\2\3\4` and continue after the match, otherwise copy one
character.  Every match consumes at least four characters, so fuel
`s.length` never runs out (the `0` case is unreachable then). -/
def canonGo (root : List Char) : ℕ → Bool → List Char → List Char
  | 0, _, s => s
  | fuel + 1, atStart, s =>
    match matchCore root atStart s with
    | some (g1, g2, c3, g4, rest) =>
      g1 ++ g2 ++ [c3] ++ g4 ++ canonGo root fuel false rest
    | none =>
      match s with
      | [] => []
      | c :: t => c :: canonGo root fuel false t

/-- `_canonicalizepatchcontent(patchcontent, rootpath)`. -/
def canonicalizepatchcontent (content root : List Char) : List Char :=
  canonGo root content.length true content

/-- Modelled from the spec's words for the refinement comparison of claim
C3: the same matcher, but the replacement strips the directory-prefix
segment (group 4) and keeps the root path (group 5), "leaving
`--- rootPath...` uniformly". -/
def specCanonGo (root : List Char) : ℕ → Bool → List Char → List Char
  | 0, _, s => s
  | fuel + 1, atStart, s =>
    match matchCore root atStart s with
    | some (g1, g2, c3, _, rest) =>
      g1 ++ g2 ++ [c3] ++ root ++ specCanonGo root fuel false rest
    | none =>
      match s with
      | [] => []
      | c :: t => c :: specCanonGo root fuel false t

/-- The spec-described variant of `canonicalizepatchcontent`. -/
def specCanonicalizeKeepRoot (content root : List Char) : List Char :=
  specCanonGo root content.length true content

/-! ## `_hgdifftopatch` (src/quahog.py lines 96-123)

Per line (keepends): drop `diff --git` lines; rewrite `--- <rootbase>` /
`+++ <rootbase>` to `--- a` / `+++ b` plus the remainder; for `@@ ` lines,
right-strip and re-append `line[-2:] if line[-2:] == '\r\n' else line[-1:]`.
In Python 3 that condition compares `bytes` with `str`, which is always
`False`, so the code always re-appends only the final byte `line[-1:]`;
the embedding reproduces this faithfully. -/

/-- `root.rstrip(b'/')`. -/
def rstripSlash (l : List Char) : List Char :=
  (l.reverse.dropWhile (fun c => c == '/')).reverse

/-- Python `line[-1:]` (last byte as a one-byte string; empty for empty). -/
def lastOne (l : List Char) : List Char := l.drop (l.length - 1)

/-- One line of `_hgdifftopatch`, as the source executes (the `\r\n` test is
dead code in Python 3, so the ending is always `line[-1:]`). -/
def hgLine (rootbase line : List Char) : List Char :=
  if startsWith "diff --git".data line then []
  else if startsWith ("--- ".data ++ rootbase) line then
    "--- a".data ++ line.drop (4 + rootbase.length)
  else if startsWith ("+++ ".data ++ rootbase) line then
    "+++ b".data ++ line.drop (4 + rootbase.length)
  else if startsWith "@@ ".data line then pyRstrip line ++ lastOne line
  else line

/-- `_hgdifftopatch(diff, root)`. -/
def hgdifftopatch (diff root : List Char) : List Char :=
  List.flatten ((splitlinesKeep diff).map (hgLine (rstripSlash root)))

/-- Python `line[-2:]`. -/
def lastTwo (l : List Char) : List Char := l.drop (l.length - 2)

/-- Modelled from the spec's words for claim C4: the intended `@@ ` ending,
`line[-2:]` when the line ends in `\r\n` and `line[-1:]` otherwise. -/
def specHgLine (rootbase line : List Char) : List Char :=
  if startsWith "diff --git".data line then []
  else if startsWith ("--- ".data ++ rootbase) line then
    "--- a".data ++ line.drop (4 + rootbase.length)
  else if startsWith ("+++ ".data ++ rootbase) line then
    "+++ b".data ++ line.drop (4 + rootbase.length)
  else if startsWith "@@ ".data line then
    pyRstrip line ++ (if lastTwo line == ['\r', '\n'] then ['\r', '\n'] else lastOne line)
  else line

/-- The spec-described variant of `_hgdifftopatch`. -/
def specHgdifftopatch (diff root : List Char) : List Char :=
  List.flatten ((splitlinesKeep diff).map (specHgLine (rstripSlash root)))

/-! ## `PATCHDESC_RE` (src/quahog.py lines 61-62) and `_isquahogpatch`

`re.compile(rb'(do not submit\s*)?\[patch\]([^\r\n]+)', re.IGNORECASE)`,
used with `fullmatch` on the first description line.  After the literal
`do not submit`, `\s*` is greedy; since `[` is not whitespace, the only
viable backtracking position is the end of the whitespace run, and if the
optional group 1 fails the bare `\[patch\]` is tried at the start. -/

/-- ASCII lowercasing, as `re.IGNORECASE` folds bytes. -/
def asciiLower (c : Char) : Char :=
  if 'A' ≤ c && c ≤ 'Z' then Char.ofNat (c.toNat + 32) else c

/-- Case-insensitive literal match of `pat` at the start of `s`; returns the
remainder. -/
def ciPrefix : List Char → List Char → Option (List Char)
  | [], s => some s
  | _ :: _, [] => none
  | p :: ps, c :: cs => if asciiLower p == asciiLower c then ciPrefix ps cs else none

/-- `([^\r\n]+)` as the final group of a `fullmatch`: the remainder must be
nonempty and free of `\r` and `\n`. -/
def g2Tail (r : List Char) : Option (List Char) :=
  if !r.isEmpty && r.all nonTerm then some r else none

/-- The pattern without the optional group 1. -/
def patchdescNoG1 (s : List Char) : Option (List Char) :=
  match ciPrefix "[patch]".data s with
  | some r3 => g2Tail r3
  | none => none

/-- `PATCHDESC_RE.fullmatch(s)`, returning group 2 on success. -/
def patchdescFullmatch (s : List Char) : Option (List Char) :=
  match ciPrefix "do not submit".data s with
  | some r1 =>
    match ciPrefix "[patch]".data (r1.dropWhile pyIsSpace) with
    | some r3 =>
      match g2Tail r3 with
      | some g2 => some g2
      | none => patchdescNoG1 s
    | none => patchdescNoG1 s
  | none => patchdescNoG1 s

/-- `description().splitlines()[0]` for a nonempty description: the
characters before the first line terminator. -/
def pyFirstLine (s : List Char) : List Char := s.takeWhile nonTerm

/-- `_isquahogpatch` on a description string. -/
def isquahogpatch (descr : List Char) : Bool :=
  (patchdescFullmatch (pyFirstLine descr)).isSome

/-! ## Patch-name normalization in `fold` (src/quahog.py lines 383-390)

`patchname = m.group(2).strip()`; if it contains a space (`b' ' in`),
`re.sub(rb' +', b'-', patchname)` replaces each maximal run of spaces by
one hyphen; a rename warning is issued exactly when the result differs. -/

/-- `re.sub(rb' +', b'-', s)`: leftmost-greedy replacement of maximal runs
of spaces by a single hyphen.  The flag records whether the previous
character was part of a space run already replaced. -/
def collapseGo : Bool → List Char → List Char
  | _, [] => []
  | inRun, c :: t =>
    if c = ' ' then (if inRun then [] else ['-']) ++ collapseGo true t
    else c :: collapseGo false t

/-- `re.sub(rb' +', b'-', s)`. -/
def subSpaceRuns (s : List Char) : List Char := collapseGo false s

/-- The stored patch name and the rename-warning flag computed by `fold`
from the captured group 2. -/
def foldpatchname (g2 : List Char) : List Char × Bool :=
  let p := pyStrip g2
  let q := if p.contains ' ' then subSpaceRuns p else p
  (q, q != p)

/-- Modelled from the spec's words for claim C5: every maximal run of
*whitespace* collapsed to one hyphen. -/
def collapseWsGo : Bool → List Char → List Char
  | inRun, c :: t =>
    if pyIsSpace c then (if inRun then [] else ['-']) ++ collapseWsGo true t
    else c :: collapseWsGo false t
  | _, [] => []

/-- The spec-described variant of `foldpatchname` (whitespace runs, not just
space runs). -/
def specFoldpatchnameWs (g2 : List Char) : List Char × Bool :=
  let p := pyStrip g2
  let q := if p.any pyIsSpace then collapseWsGo false p else p
  (q, q != p)

/-! ## The series file and the `pop` command (src/quahog.py lines 491-647)

`pop` reads the series file once (`origseries`), computes the active patch
list (`splitlines`, dropping empty and `#`-prefixed entries), and iterates
`zip(range(patchestopop), reversed(patches))`: at iteration `i` it
*overwrites* the series file with `b'\n'.join(patches[:-i-1]) + b'\n'`,
reads and splits the patch file, canonicalizes it, and reverse-applies it
with an external tool; afterwards it commits or amends the base,
forward-applies the remembered patches in original order committing one
leaf each, and rebases.  The whole region sits in a bare `try/except` whose
handler rewrites the series file with `origseries` and re-raises.  The
model tracks the series-file content and abstracts the external effects
(patch-file reads and tool invocations) behind an environment. -/

/-- `patches = [p for p in origseries.splitlines() if p and not
p.startswith(b'#')]`. -/
def activePatches (series : List Char) : List (List Char) :=
  (pySplitlines series).filter (fun p => !p.isEmpty && !startsWith "#".data p)

/-- The series-file content written at iteration `i` of the pop loop:
`b'\n'.join(patches[:-i-1]) + b'\n'`. -/
def seriesRewrite (active : List (List Char)) (i : ℕ) : List Char :=
  nlJoin (active.take (active.length - i - 1)) ++ ['\n']

/-- The external collaborators of `pop`: the patch files on disk and the
outcomes of the external patch tool (reverse and forward application,
indexed by loop iteration) and of the base commit/amend step. -/
structure PopEnv where
  patchFile : List Char → Option (List Char)
  revOk : ℕ → Bool
  fwdOk : ℕ → Bool
  amendOk : Bool

/-- The failure modes raised inside the `try` region of `pop`. -/
inductive PopErr
  | missingPatch (name : List Char)
  | reverseFailed (name : List Char)
  | amendFailed
  | applyFailed (name : List Char)
deriving DecidableEq

deriving instance DecidableEq for Except

/-- One remembered `(patchtopop, patchcontent, patchdesc)` triple. -/
abbrev PopInfo := List Char × List Char × List Char

/-- The pop loop over `zip(range(patchestopop), reversed(patches))`,
threaded over the pairs `(i, name)`; returns the remembered infos in pop
order (reversed at the end by the caller) and the current series-file
content. -/
def popSteps (root : List Char) (env : PopEnv) (active : List (List Char)) :
    List (ℕ × List Char) → List Char → List PopInfo →
    Except PopErr (List PopInfo) × List Char
  | [], s, acc => (.ok acc.reverse, s)
  | (i, name) :: rest, _, acc =>
    let s' := seriesRewrite active i
    match env.patchFile name with
    | none => (.error (.missingPatch name), s')
    | some content =>
      let pd := separatepatchdescription content
      let body := canonicalizepatchcontent pd.1 root
      if env.revOk i then popSteps root env active rest s' ((name, body, pd.2) :: acc)
      else (.error (.reverseFailed name), s')

/-- The reapply loop (`for ... in reversed(patchinfos)`): forward-apply each
remembered patch in original series order. -/
def fwdSteps (env : PopEnv) : List PopInfo → ℕ → Except PopErr Unit
  | [], _ => .ok ()
  | (name, _, _) :: rest, j =>
    if env.fwdOk j then fwdSteps env rest (j + 1)
    else .error (.applyFailed name)

/-- `DO %s SUBMIT [PATCH] %s' % (b'NOT', patchtopop)`, plus the optional
blank line and description. -/
def popCommitMessage (name desc : List Char) : List Char :=
  ("DO NOT SUBMIT [PATCH] ".data ++ name) ++
    (if desc.isEmpty then [] else '\n' :: '\n' :: desc)

/-- The body of the `try` region of `pop`: the pop loop, the base
commit/amend, and the reapply loop; returns the outcome and the series-file
content at exit. -/
def popTryBody (root : List Char) (env : PopEnv) (active : List (List Char))
    (pairs : List (ℕ × List Char)) (origseries : List Char) :
    Except PopErr Unit × List Char :=
  match popSteps root env active pairs origseries [] with
  | (.error e, s) => (.error e, s)
  | (.ok infos, s) =>
    if env.amendOk then
      match fwdSteps env infos 0 with
      | .ok _ => (.ok (), s)
      | .error e => (.error e, s)
    else (.error .amendFailed, s)

/-- The bare `except` handler of `pop`: on any error, rewrite the series
file with `origseries` and re-raise. -/
def popGuard (origseries : List Char) (x : Except PopErr Unit × List Char) :
    Except PopErr Unit × List Char :=
  match x with
  | (.ok u, s) => (.ok u, s)
  | (.error e, _) => (.error e, origseries)

/-- The number of loop iterations `zip(range(patchestopop),
reversed(patches))` performs: the requested count (the full active length
under `--all`) capped by the number of active patches. -/
def popCount (origseries : List Char) (countOpt : ℕ) (popall : Bool) : ℕ :=
  min (if popall then (activePatches origseries).length else countOpt)
    (activePatches origseries).length

/-- The `(i, patchtopop)` pairs the pop loop iterates over: indices paired
with the active patches taken from the end. -/
def popPairs (origseries : List Char) (countOpt : ℕ) (popall : Bool) :
    List (ℕ × List Char) :=
  (List.range (popCount origseries countOpt popall)).map
    (fun i => (i, (activePatches origseries).getD
      ((activePatches origseries).length - 1 - i) []))

/-- The `pop` command's effect on the series file: early returns for a
non-positive count or an empty series with `--all`, the guarded `try`
region, and the bare `except` handler that rewrites the series file with
`origseries` before re-raising.  Returns the outcome and the final
series-file content. -/
def popModel (root : List Char) (env : PopEnv) (countOpt : ℕ) (popall : Bool)
    (origseries : List Char) : Except PopErr Unit × List Char :=
  if countOpt < 1 then (.ok (), origseries)
  else if popall && (activePatches origseries).length < 1 then (.ok (), origseries)
  else popGuard origseries (popTryBody root env (activePatches origseries)
    (popPairs origseries countOpt popall) origseries)

/-! ## The rebase-target revset of `pop` (src/quahog.py lines 548-552)

`repo.revs(opts.get(b'rebase') or (b'none()' if createnew else
b'children(. & not public())'))`, where `.` is the freshly checked-out base.
A small commit-graph model suffices: `children(S)` collects the commits one
of whose parents lies in `S`, `not public()` filters by phase. -/

/-- A finite commit graph with parents and phases. -/
structure RepoGraph where
  commits : List ℕ
  parentsOf : ℕ → List ℕ
  isPublic : ℕ → Bool

/-- The revset `children(S)`. -/
def revChildren (g : RepoGraph) (s : List ℕ) : List ℕ :=
  g.commits.filter (fun c => (g.parentsOf c).any (fun p => s.contains p))

/-- The default rebase-target revset of `pop`: `none()` when creating a new
base, else `children(. & not public())` with `.` the resolved base. -/
def popRebaseRevs (g : RepoGraph) (base : ℕ) (createnew : Bool) : List ℕ :=
  if createnew then []
  else revChildren g (if g.isPublic base then [] else [base])

/-- The set claim C6 describes: the non-public children of the base. -/
def nonPublicChildren (g : RepoGraph) (base : ℕ) : List ℕ :=
  (revChildren g [base]).filter (fun c => !g.isPublic c)

/-- Phase monotonicity: every parent of a public commit is public
(equivalently, descendants of draft commits are draft). -/
def PhasesMonotone (g : RepoGraph) : Prop :=
  ∀ c p, c ∈ g.commits → p ∈ g.parentsOf c → g.isPublic c = true → g.isPublic p = true

/-! ## Implicit chain resolution in `fold` (src/quahog.py lines 363-378)

`patchrevs = []; patchctx = toctx; while foldall or len(patchrevs) !=
foldcount:` filter the Patch-kind children of `patchctx`; more than one is
an "ambiguous chain" abort, none breaks, otherwise step to the unique one
and collect it.  The walk is modelled with a fuel parameter; with
children of strictly larger rev number below a bound `N` (true of any
revlog) a fuel of `N` is never exhausted. -/

/-- The Patch-kind children of a commit. -/
def patchKids (children : ℕ → List ℕ) (isPatch : ℕ → Bool) (r : ℕ) : List ℕ :=
  (children r).filter isPatch

/-- The `while` loop of the implicit chain resolution, collecting into
`acc` (forward order).  `.error ()` is the ambiguous-chain abort. -/
def foldChainLoop (children : ℕ → List ℕ) (isPatch : ℕ → Bool)
    (foldall : Bool) (count : ℕ) : ℕ → ℕ → List ℕ → Except Unit (List ℕ)
  | 0, _, acc => .ok acc
  | fuel + 1, cur, acc =>
    if foldall || acc.length != count then
      let ps := patchKids children isPatch cur
      if ps.length > 1 then .error ()
      else
        match ps with
        | [] => .ok acc
        | c :: _ => foldChainLoop children isPatch foldall count fuel c (acc ++ [c])
    else .ok acc

/-- Implicit chain resolution from the resolved target `tgt` (= `toctx`). -/
def foldResolveChain (children : ℕ → List ℕ) (isPatch : ℕ → Bool)
    (foldall : Bool) (count tgt fuel : ℕ) : Except Unit (List ℕ) :=
  foldChainLoop children isPatch foldall count fuel tgt []

/-- Modelled from the spec's words for claim C7: walk downward taking at
each step the unique Patch-kind child, aborting when a visited commit has
more than one, stopping once `count` patches are collected (count mode) or
at the first commit with no Patch-kind child. -/
def specWalk (children : ℕ → List ℕ) (isPatch : ℕ → Bool) (foldall : Bool)
    (count : ℕ) : ℕ → ℕ → List ℕ → Except Unit (List ℕ)
  | 0, _, acc => .ok acc
  | fuel + 1, cur, acc =>
    if !foldall && count ≤ acc.length then .ok acc
    else
      match patchKids children isPatch cur with
      | [] => .ok acc
      | [c] => specWalk children isPatch foldall count fuel c (acc ++ [c])
      | _ => .error ()

/-- What `fold` does with the resolved chain: abort on ambiguity, warn and
do nothing on an empty chain, otherwise proceed to mutate. -/
inductive FoldAction
  | abortAmbiguous
  | warnNoop
  | proceed (chain : List ℕ)
deriving DecidableEq

/-- The dispatch on the resolved chain (`if not patchrevs: warn; return`). -/
def foldDispatch : Except Unit (List ℕ) → FoldAction
  | .error _ => .abortAmbiguous
  | .ok [] => .warnNoop
  | .ok l => .proceed l

/-- `l` is the successive unique-Patch-child chain descending from `cur`. -/
def IsChain (children : ℕ → List ℕ) (isPatch : ℕ → Bool) : ℕ → List ℕ → Prop
  | _, [] => True
  | cur, c :: rest => patchKids children isPatch cur = [c] ∧ IsChain children isPatch c rest

/-- The last commit of a walk starting at `cur` through `l`. -/
def lastOf : ℕ → List ℕ → ℕ
  | cur, [] => cur
  | _, c :: rest => lastOf c rest

/-! ## Concrete instances used by counterexamples and witnesses -/

/-- A pop environment in which every external step succeeds. -/
def envAllOk : PopEnv :=
  ⟨fun _ => some "--- x\n".data, fun _ => true, fun _ => true, true⟩

/-- A pop environment in which the first reverse-apply fails. -/
def envRevFail : PopEnv :=
  ⟨fun _ => some "--- x\n".data, fun _ => false, fun _ => true, true⟩

/-- Two commits: a public base `0` with a single draft child `1`. -/
def pubBaseGraph : RepoGraph :=
  ⟨[0, 1], fun c => if c = 1 then [0] else [], fun r => r == 0⟩

/-- Children map of a three-commit line `0 → 1 → 2` for the chain walk. -/
def lineKids (r : ℕ) : List ℕ :=
  if r = 0 then [1] else if r = 1 then [2] else []

/-- Patch classification for `lineKids`: `1` and `2` are Patch commits. -/
def linePatch (r : ℕ) : Bool := decide (0 < r)


/-! ## Helper lemmas -/

theorem collapseGo_eq_self (b : Bool) (l : List Char) (h : ' ' ∉ l) :
    collapseGo b l = l := by
  induction l generalizing b with
  | nil => rfl
  | cons c t ih =>
    have hc : c ≠ ' ' := fun hcc => h (hcc ▸ List.mem_cons_self c t)
    have ht : ' ' ∉ t := fun hm => h (List.mem_cons_of_mem c hm)
    simp only [collapseGo, if_neg hc]
    exact congrArg (c :: ·) (ih false ht)

theorem collapseGo_ne_of_space (l : List Char) (h : ' ' ∈ l) :
    collapseGo false l ≠ l := by
  induction l with
  | nil => cases h
  | cons c t ih =>
    by_cases hc : c = ' '
    · subst hc
      intro heq
      have hred : collapseGo false (' ' :: t) = '-' :: collapseGo true t := by
        simp [collapseGo]
      rw [hred] at heq
      exact absurd (List.cons.inj heq).1 (by decide)
    · have ht : ' ' ∈ t := by
        rcases List.mem_cons.1 h with h1 | h1
        · exact absurd h1.symm hc
        · exact h1
      simp only [collapseGo, if_neg hc]
      intro heq
      exact ih ht (List.cons.inj heq).2

theorem popGuard_error (os : List Char) (x : Except PopErr Unit × List Char)
    (e : PopErr) (h : (popGuard os x).1 = .error e) : (popGuard os x).2 = os := by
  rcases x with ⟨r, s⟩
  cases r with
  | ok u => simp [popGuard] at h
  | error f => simp [popGuard]

theorem popSteps_ok_last (root : List Char) (env : PopEnv)
    (active : List (List Char)) :
    ∀ (pairs : List (ℕ × List Char)) (s0 : List Char) (acc : List PopInfo)
      (r : List PopInfo) (s : List Char),
      popSteps root env active pairs s0 acc = (.ok r, s) →
      s = pairs.foldl (fun _ p => seriesRewrite active p.1) s0 := by
  intro pairs
  induction pairs with
  | nil =>
    intro s0 acc r s h
    simp only [popSteps, Prod.mk.injEq] at h
    simp [h.2.symm]
  | cons p rest ih =>
    rcases p with ⟨i, name⟩
    intro s0 acc r s h
    simp only [popSteps] at h
    rcases hpf : env.patchFile name with _ | content
    · rw [hpf] at h
      simp at h
    · rw [hpf] at h
      simp only at h
      rcases hrev : env.revOk i with _ | _ <;> rw [hrev] at h
      · simp at h
      · simp only [if_true] at h
        simpa using ih _ _ _ _ h

/-! ## Claim C1 (confirmed): series-file restoration on any `pop` failure -/

/-- C1: for every `pop` invocation, if any exception is raised inside the
guarded region (a missing patch file, a reverse-apply or forward-apply
failure of the external tool, or a failing base commit/amend), the series
file's final content is exactly the pre-operation `origseries` when the
error propagates. -/
theorem pop_series_restored_on_error (root : List Char) (env : PopEnv)
    (countOpt : ℕ) (popall : Bool) (origseries : List Char) (e : PopErr)
    (h : (popModel root env countOpt popall origseries).1 = .error e) :
    (popModel root env countOpt popall origseries).2 = origseries := by
  unfold popModel at h ⊢
  split_ifs at h ⊢
  all_goals first
  | exact absurd h (by simp)
  | exact popGuard_error _ _ e h

/-- C1 witness: a concrete pop of one patch whose reverse-apply fails; the
error propagates and the series file holds its original bytes. -/
theorem pop_series_restored_on_error_witness :
    (popModel "r".data envRevFail 1 false "a\nb\n".data).1 =
      .error (.reverseFailed "b".data) ∧
    (popModel "r".data envRevFail 1 false "a\nb\n".data).2 = "a\nb\n".data :=
  ⟨by decide, pop_series_restored_on_error "r".data envRevFail 1 false
    "a\nb\n".data (.reverseFailed "b".data) (by decide)⟩

/-! ## Claim C2 (corrected): the pop-loop series rewrites -/

/-- C2 counterexample: the claim states that blank and `#`-comment lines of
the original series file are preserved verbatim by the pop-loop rewrites.
The code joins the *filtered* active list (`patches[:-i-1]`), so popping
one patch from a series `"# k\na\nb\n"` leaves the file `"a\n"`, not the
claimed `"# k\na\n"`. -/
theorem pop_series_rewrite_drops_comments :
    popModel "r".data envAllOk 1 false "# k\na\nb\n".data = (.ok (), "a\n".data) ∧
    "a\n".data ≠ "# k\na\n".data := by decide

/-- C2 amended: each pop-loop rewrite of the series file consists solely of
the remaining *active* patch names, newline-joined with one trailing
newline (`b'\n'.join(patches[:-i-1]) + b'\n'`); blank lines and `#`-comment
lines of the original series file are dropped.  On a successful pop of
`k ≥ 1` patches the final series content is the `k`-th such rewrite. -/
theorem pop_series_rewrite_active_only (root : List Char) (env : PopEnv)
    (countOpt : ℕ) (popall : Bool) (origseries : List Char)
    (hcount : 1 ≤ countOpt)
    (hok : (popModel root env countOpt popall origseries).1 = .ok ())
    (hk : 1 ≤ popCount origseries countOpt popall) :
    (popModel root env countOpt popall origseries).2 =
      seriesRewrite (activePatches origseries)
        (popCount origseries countOpt popall - 1) := by
  unfold popModel at hok ⊢
  split_ifs at hok ⊢ with h1 h2
  · omega
  · simp only [Bool.and_eq_true, decide_eq_true_eq] at h2
    have hcap : popCount origseries countOpt popall ≤
        (activePatches origseries).length := min_le_right _ _
    omega
  · rcases htb : popTryBody root env (activePatches origseries)
        (popPairs origseries countOpt popall) origseries with ⟨r, s⟩
    cases r with
    | error f =>
      rw [htb] at hok
      simp [popGuard] at hok
    | ok u =>
      simp only [popGuard]
      unfold popTryBody at htb
      rcases hps : popSteps root env (activePatches origseries)
          (popPairs origseries countOpt popall) origseries [] with ⟨rs, ss⟩
      rw [hps] at htb
      cases rs with
      | error f => simp at htb
      | ok infos =>
        simp only at htb
        rcases hamend : env.amendOk with _ | _ <;> rw [hamend] at htb
        · simp at htb
        · simp only [if_true] at htb
          rcases hfs : fwdSteps env infos 0 with f | v <;> rw [hfs] at htb
          · simp at htb
          · simp only [Prod.mk.injEq, Except.ok.injEq] at htb
            obtain ⟨-, htb2⟩ := htb
            have hss : ss = (popPairs origseries countOpt popall).foldl
                (fun _ p => seriesRewrite (activePatches origseries) p.1)
                origseries :=
              popSteps_ok_last root env _ _ _ _ _ _ hps
            rw [← htb2, hss]
            unfold popPairs
            obtain ⟨m, hm⟩ : ∃ m, popCount origseries countOpt popall = m + 1 :=
              ⟨popCount origseries countOpt popall - 1, by omega⟩
            rw [hm]
            simp only [List.range_succ, List.map_append, List.foldl_append]
            simp [hm]

/-- C2 witness: popping all patches of a three-line series (one comment,
two active names) leaves the series file equal to the final loop rewrite. -/
theorem pop_series_rewrite_active_only_witness :
    (popModel "r".data envAllOk 1 true "# k\na\nb\n".data).2 =
      seriesRewrite (activePatches "# k\na\nb\n".data)
        (popCount "# k\na\nb\n".data 1 true - 1) :=
  pop_series_rewrite_active_only "r".data envAllOk 1 true "# k\na\nb\n".data
    (by decide) (by decide) (by decide)

/-! ## Canonicalization lemmas (claims C3 and C9) -/

theorem startsWith_refl (l : List Char) : startsWith l l = true := by
  induction l with
  | nil => rfl
  | cons c t ih => simp [startsWith, ih]

theorem findG4_some_prefix (root s : List Char) :
    ∀ fuel L, findG4 root s fuel = some L → startsWith root (s.drop L) = true := by
  intro fuel
  induction fuel with
  | zero =>
    intro L h
    simp only [findG4] at h
    split_ifs at h with hs
    · cases h
      simpa using hs
  | succ m ih =>
    intro L h
    simp only [findG4] at h
    split_ifs at h with hc
    · cases h
      simp only [Bool.and_eq_true] at hc
      exact hc.2
    · exact ih L h

theorem matchTail_occurs (root s : List Char)
    (r : List Char × Char × List Char × List Char)
    (h : matchTail root s = some r) :
    ∃ k, startsWith root (s.drop k) = true := by
  unfold matchTail at h
  rcases hm : matchG2 s with _ | ⟨g2, s2⟩ <;> rw [hm] at h <;> simp only [] at h
  · cases h
  · have hs2 : s2 = s.drop 3 := by
      unfold matchG2 at hm
      split_ifs at hm <;>
        · simp only [Option.some.injEq, Prod.mk.injEq] at hm
          exact hm.2.symm
    rcases hsc : s2 with _ | ⟨c3, s3⟩
    · rw [hsc] at h
      simp only [] at h
      cases h
    · rw [hsc] at h
      simp only [] at h
      split_ifs at h with hsp
      rcases hf : findG4 root s3 s3.length with _ | L <;> rw [hf] at h <;>
        simp only [] at h
      · cases h
      · have hpre := findG4_some_prefix root s3 s3.length L hf
        refine ⟨L + 4, ?_⟩
        have hs3 : s3 = s.drop 4 := by
          have h4 : s.drop 4 = (s.drop 3).drop 1 := by
            rw [List.drop_drop]
          rw [h4, ← hs2, hsc, List.drop_one, List.tail_cons]
        have hdd : s3.drop L = s.drop (L + 4) := by
          rw [hs3, List.drop_drop, Nat.add_comm]
        rwa [hdd] at hpre

theorem nlAlt_ne_newline (root : List Char) (c : Char) (t : List Char)
    (hc : c ≠ '\n') : nlAlt root (c :: t) = none := by
  unfold nlAlt
  split
  next heq => exact absurd (List.cons.inj heq).1 hc
  next => rfl

theorem nlAlt_occurs (root s : List Char)
    (m : List Char × List Char × Char × List Char × List Char)
    (h : nlAlt root s = some m) :
    ∃ k, startsWith root (s.drop k) = true := by
  rcases hsc : s with _ | ⟨c, t⟩
  · rw [hsc] at h
    simp [nlAlt] at h
  · by_cases hc : c = '\n'
    · subst hc
      rw [hsc] at h
      simp only [nlAlt] at h
      rcases hmt : matchTail root t with _ | r2 <;> rw [hmt] at h <;>
        simp only [] at h
      · cases h
      · rcases matchTail_occurs root t r2 hmt with ⟨k, hk⟩
        refine ⟨k + 1, ?_⟩
        simpa using hk
    · rw [hsc, nlAlt_ne_newline root c t hc] at h
      cases h

theorem matchCore_occurs (root : List Char) (b : Bool) (s : List Char)
    (m : List Char × List Char × Char × List Char × List Char)
    (h : matchCore root b s = some m) :
    ∃ k, startsWith root (s.drop k) = true := by
  unfold matchCore at h
  rcases hi : (if b then matchTail root s else none) with _ | r <;> rw [hi] at h <;>
    simp only [] at h
  · exact nlAlt_occurs root s m h
  · have hb : b = true := by
      cases b
      · simp at hi
      · rfl
    rw [hb, if_pos rfl] at hi
    rcases matchTail_occurs root s r hi with ⟨k, hk⟩
    exact ⟨k, hk⟩

theorem canonGo_nil (root : List Char) (fuel : ℕ) (b : Bool) :
    canonGo root fuel b [] = [] := by
  cases fuel with
  | zero => rfl
  | succ m =>
    have hmt : matchTail root [] = none := rfl
    have hmc : matchCore root b [] = none := by
      unfold matchCore
      cases b <;> simp [hmt, nlAlt]
    simp [canonGo, hmc]

theorem canonGo_id_of_noOccur (root : List Char) :
    ∀ fuel (b : Bool) (s : List Char),
      (∀ k, startsWith root (s.drop k) = false) → canonGo root fuel b s = s := by
  intro fuel
  induction fuel with
  | zero => intro b s h; rfl
  | succ m ih =>
    intro b s h
    have hmc : matchCore root b s = none := by
      rcases hx : matchCore root b s with _ | mm
      · rfl
      · rcases matchCore_occurs root b s mm hx with ⟨k, hk⟩
        rw [h k] at hk
        cases hk
    rcases s with _ | ⟨c, t⟩
    · exact canonGo_nil root _ b
    · have ht : ∀ k, startsWith root (t.drop k) = false := by
        intro k
        have hk1 := h (k + 1)
        simpa using hk1
      simp only [canonGo, hmc]
      exact congrArg (c :: ·) (ih false t ht)

/-! ## Claim C9 (corrected): idempotence of `_canonicalizepatchcontent` -/

/-- C9 counterexample: canonicalization is not idempotent.  On
`"--- a/root/root/f\n"` with root path `"root"` the first pass matches the
greedy prefix `a/root/` and deletes the second `root`, yielding
`"--- a/root//f\n"`; a second pass then matches prefix `a/` before the
remaining `root` and deletes it too, yielding `"--- a///f\n"`. -/
theorem canonicalize_not_idempotent :
    canonicalizepatchcontent "--- a/root/root/f\n".data "root".data =
      "--- a/root//f\n".data ∧
    canonicalizepatchcontent "--- a/root//f\n".data "root".data =
      "--- a///f\n".data ∧
    canonicalizepatchcontent
        (canonicalizepatchcontent "--- a/root/root/f\n".data "root".data)
        "root".data ≠
      canonicalizepatchcontent "--- a/root/root/f\n".data "root".data := by decide

/-- C9 amended: `canonicalizePaths` is idempotent on every content in which
the root path does not occur as a substring (such content is left
unchanged, so a second application is also the identity); on contents
containing the root path a second application can rewrite further. -/
theorem canonicalize_idempotent_no_occurrence (root s : List Char)
    (hplain : root.all plainChar = true)
    (h : ((List.range (s.length + 1)).all
      (fun k => !startsWith root (s.drop k))) = true) :
    canonicalizepatchcontent (canonicalizepatchcontent s root) root =
      canonicalizepatchcontent s root := by
  have hall : ∀ k, startsWith root (s.drop k) = false := by
    intro k
    by_cases hk : k ≤ s.length
    · have hmem : k ∈ List.range (s.length + 1) := List.mem_range.2 (by omega)
      have hx := List.all_eq_true.1 h k hmem
      simpa using hx
    · have hdrop : s.drop k = s.drop s.length := by
        rw [List.drop_length, List.drop_eq_nil_of_le (by omega)]
      have hmem : s.length ∈ List.range (s.length + 1) := List.mem_range.2 (by omega)
      have hx := List.all_eq_true.1 h s.length hmem
      rw [hdrop]
      simpa using hx
  have hid : canonicalizepatchcontent s root = s :=
    canonGo_id_of_noOccur root s.length true s hall
  rw [hid]
  exact hid

/-- C9 witness: a content without any occurrence of the root path is a
fixed point, hence idempotent there. -/
theorem canonicalize_idempotent_no_occurrence_witness :
    ((List.range ("--- a/f\n".data.length + 1)).all
      (fun k => !startsWith "root".data ("--- a/f\n".data.drop k))) = true ∧
    canonicalizepatchcontent
        (canonicalizepatchcontent "--- a/f\n".data "root".data) "root".data =
      canonicalizepatchcontent "--- a/f\n".data "root".data :=
  ⟨by decide, canonicalize_idempotent_no_occurrence "root".data "--- a/f\n".data
    (by decide) (by decide)⟩

theorem specCanonGo_nil (root : List Char) (fuel : ℕ) (b : Bool) :
    specCanonGo root fuel b [] = [] := by
  cases fuel with
  | zero => rfl
  | succ m =>
    have hmt : matchTail root [] = none := rfl
    have hmc : matchCore root b [] = none := by
      unfold matchCore
      cases b <;> simp [hmt, nlAlt]
    simp [specCanonGo, hmc]

theorem canonGo_step (root : List Char) (fuel : ℕ) (b : Bool) (s : List Char)
    (g1 g2 : List Char) (c3 : Char) (g4 rest : List Char)
    (h : matchCore root b s = some (g1, g2, c3, g4, rest)) :
    canonGo root (fuel + 1) b s =
      g1 ++ g2 ++ [c3] ++ g4 ++ canonGo root fuel false rest := by
  simp only [canonGo, h]

theorem specCanonGo_step (root : List Char) (fuel : ℕ) (b : Bool) (s : List Char)
    (g1 g2 : List Char) (c3 : Char) (g4 rest : List Char)
    (h : matchCore root b s = some (g1, g2, c3, g4, rest)) :
    specCanonGo root (fuel + 1) b s =
      g1 ++ g2 ++ [c3] ++ root ++ specCanonGo root fuel false rest := by
  simp only [specCanonGo, h]

theorem findG4_shortseg (root : List Char) (hsl : ∀ c ∈ root, c ≠ '/') :
    ∀ fuel, 2 ≤ fuel → findG4 root ('a' :: '/' :: root) fuel = some 2 := by
  intro fuel
  induction fuel with
  | zero => intro h; omega
  | succ m ih =>
    intro h
    by_cases hm : m = 1
    · subst hm
      simp only [findG4]
      rw [if_pos ?hc]
      case hc =>
        have htake : (('a' :: '/' :: root).take (1 + 1)).all
            (fun c => !pyIsSpace c) = true := rfl
        have hget : (('a' :: '/' :: root).get? 1 == some '/') = true := rfl
        have hdrop : startsWith root (('a' :: '/' :: root).drop (1 + 1)) = true :=
          startsWith_refl root
        rw [htake, hget, hdrop]
        rfl
    · have h2 : 2 ≤ m := by omega
      have hget : (('a' :: '/' :: root).get? m == some '/') = false := by
        obtain ⟨m', rfl⟩ : ∃ m', m = m' + 2 := ⟨m - 2, by omega⟩
        simp only [List.get?_cons_succ]
        rcases hr : root.get? m' with _ | c
        · simp
        · have hc : c ∈ root := List.get?_mem hr
          simp [hsl c hc]
      simp only [findG4]
      rw [if_neg ?hneg, ih h2]
      case hneg =>
        intro hcc
        simp only [Bool.and_eq_true] at hcc
        rw [hcc.1.2] at hget
        simp at hget

/-! ## Claim C3 (corrected): what `_canonicalizepatchcontent` rewrites -/

/-- C3 counterexample: the claim states that a matched `---`/`+++` header
is rewritten by stripping the directory-prefix segment and *keeping* the
root path (`--- rootPath...`).  The replacement `\1\2\3\4` keeps groups 1-4
(including the `(\S*/)?` prefix segment) and deletes group 5, the root
path: on `"--- a/root/f\n"` with root `"root"` the code yields
`"--- a//f\n"`, not the claimed `"--- root/f\n"`. -/
theorem canonicalize_root_removed_not_kept :
    canonicalizepatchcontent "--- a/root/f\n".data "root".data = "--- a//f\n".data ∧
    specCanonicalizeKeepRoot "--- a/root/f\n".data "root".data = "--- root/f\n".data ∧
    canonicalizepatchcontent "--- a/root/f\n".data "root".data ≠
      specCanonicalizeKeepRoot "--- a/root/f\n".data "root".data := by decide

/-- C3 amended: on a matched header the rewrite *keeps* the optional
directory-prefix segment (group 4) and deletes the literal root-path
occurrence (group 5): for every root path (nonempty, slash-free,
metacharacter-free) the header `--- a/<root>` is rewritten to `--- a/`,
whereas the spec's description would keep the root and strip the prefix,
yielding `--- <root>`. -/
theorem canonicalize_keeps_prefix_strips_root (root : List Char)
    (hroot : root ≠ []) (hsl : ∀ c ∈ root, c ≠ '/')
    (hplain : root.all plainChar = true) :
    canonicalizepatchcontent ("--- a/".data ++ root) root = "--- a/".data ∧
    specCanonicalizeKeepRoot ("--- a/".data ++ root) root = "--- ".data ++ root := by
  have hs : "--- a/".data ++ root = '-' :: '-' :: '-' :: ' ' :: 'a' :: '/' :: root := rfl
  have hmg2 : matchG2 ('-' :: '-' :: '-' :: ' ' :: 'a' :: '/' :: root) =
      some ("---".data, ' ' :: 'a' :: '/' :: root) := rfl
  have hlen : ('a' :: '/' :: root).length = root.length + 2 := by simp
  have hfg : findG4 root ('a' :: '/' :: root) ('a' :: '/' :: root).length = some 2 := by
    exact findG4_shortseg root hsl _ (by rw [hlen]; omega)
  have hdrop : ('a' :: '/' :: root).drop (2 + root.length) = [] := by
    rw [show 2 + root.length = (root.length + 1) + 1 from by omega]
    rw [List.drop_succ_cons, List.drop_succ_cons, List.drop_length]
  have htake : ('a' :: '/' :: root).take 2 = ['a', '/'] := rfl
  have hmt : matchTail root ('-' :: '-' :: '-' :: ' ' :: 'a' :: '/' :: root) =
      some ("---".data, ' ', ['a', '/'], []) := by
    unfold matchTail
    rw [hmg2]
    simp only []
    rw [if_pos (by decide), hfg]
    simp only []
    rw [htake, hdrop]
  have hmc : matchCore root true ('-' :: '-' :: '-' :: ' ' :: 'a' :: '/' :: root) =
      some ([], "---".data, ' ', ['a', '/'], []) := by
    unfold matchCore
    rw [if_pos rfl, hmt]
  have hlen6 : ('-' :: '-' :: '-' :: ' ' :: 'a' :: '/' :: root).length =
      (root.length + 5) + 1 := by
    simp only [List.length_cons]
  constructor
  · unfold canonicalizepatchcontent
    rw [hs, hlen6, canonGo_step root (root.length + 5) true _ [] "---".data ' '
      ['a', '/'] [] hmc, canonGo_nil]
    rfl
  · unfold specCanonicalizeKeepRoot
    rw [hs, hlen6, specCanonGo_step root (root.length + 5) true _ [] "---".data ' '
      ['a', '/'] [] hmc, specCanonGo_nil]
    simp

/-- C3 witness: the amended rewrite at the concrete root path `"root"`. -/
theorem canonicalize_keeps_prefix_strips_root_witness :
    canonicalizepatchcontent ("--- a/".data ++ "root".data) "root".data =
      "--- a/".data ∧
    specCanonicalizeKeepRoot ("--- a/".data ++ "root".data) "root".data =
      "--- ".data ++ "root".data :=
  canonicalize_keeps_prefix_strips_root "root".data (by decide) (by decide)
    (by decide)

/-! ## Claim C4 (code bug): `@@ ` hunk-header line endings in `_hgdifftopatch` -/

/-- C4: the claim states that a `@@ ` hunk-header line ending in `\r\n`
keeps its `\r\n` terminator after trailing-whitespace stripping.  The code
computes `ending = line[-2:] if line[-2:] == '\r\n' else line[-1:]`, but in
Python 3 a `bytes`-to-`str` comparison is always `False`, so the `\r` is
stripped and only `\n` is re-appended: on the input `"@@ -1 +1 @@ \r\n"`
the code produces `"@@ -1 +1 @@\n"`, while the evidently intended (and
spec-described) behaviour produces `"@@ -1 +1 @@\r\n"`. -/
theorem hgdiff_crlf_hunk_header_loses_cr :
    hgdifftopatch "@@ -1 +1 @@ \r\n".data "r".data = "@@ -1 +1 @@\n".data ∧
    specHgdifftopatch "@@ -1 +1 @@ \r\n".data "r".data = "@@ -1 +1 @@\r\n".data ∧
    "@@ -1 +1 @@\n".data ≠ "@@ -1 +1 @@\r\n".data := by decide

/-! ## Claim C5 (corrected): patch-name normalization in `fold` -/

/-- C5 counterexample: the claim states every run of *whitespace* in the
captured name is replaced by a hyphen (with a rename warning exactly when
that changes the name).  The code only tests for and replaces runs of
*spaces* (`b' ' in patchname`, `re.sub(rb' +', b'-', ...)`), so the name
`"a\tb"` — whose internal whitespace is a tab — is stored unchanged and no
warning is issued, while the claim demands `"a-b"` and a warning. -/
theorem foldname_tab_not_collapsed :
    foldpatchname "a\tb".data = ("a\tb".data, false) ∧
    specFoldpatchnameWs "a\tb".data = ("a-b".data, true) ∧
    foldpatchname "a\tb".data ≠ specFoldpatchnameWs "a\tb".data := by decide

/-- C5 amended: the stored patch name replaces every maximal run of *space*
characters (not general whitespace) in the trimmed captured name with a
single hyphen, and the rename warning is emitted exactly when the trimmed
name contains a space. -/
theorem foldname_space_runs (g2 : List Char) :
    foldpatchname g2 = (subSpaceRuns (pyStrip g2), (pyStrip g2).contains ' ') := by
  by_cases hm : ' ' ∈ pyStrip g2
  · have hc : (pyStrip g2).contains ' ' = true := List.elem_iff.2 hm
    have hne : subSpaceRuns (pyStrip g2) ≠ pyStrip g2 := collapseGo_ne_of_space _ hm
    simp only [foldpatchname, hc, if_true, Prod.mk.injEq, true_and]
    simp [bne_iff_ne, hne]
  · have hc : (pyStrip g2).contains ' ' = false := by
      cases hcc : (pyStrip g2).contains ' '
      · rfl
      · exact absurd (List.elem_iff.1 hcc) hm
    have hid : subSpaceRuns (pyStrip g2) = pyStrip g2 := collapseGo_eq_self false _ hm
    simp only [foldpatchname, hc, Bool.false_eq_true, if_false, Prod.mk.injEq]
    exact ⟨hid.symm, by simp⟩

/-! ## Claim C10 (confirmed): pop's synthesized commit messages -/

theorem pnsGo_no_term : ∀ (acc t : List Char), acc.all nonTerm = true →
    ∀ l ∈ pnsGo acc t, l.all nonTerm = true := by
  intro acc t
  induction acc, t using pnsGo.induct with
  | case1 acc hemp =>
    intro hacc l hl
    simp [pnsGo, hemp] at hl
  | case2 acc hemp =>
    intro hacc l hl
    rw [show pnsGo acc [] = [acc.reverse] from by simp [pnsGo, hemp]] at hl
    simp only [List.mem_singleton] at hl
    subst hl
    simpa using hacc
  | case3 acc t ih =>
    intro hacc l hl
    rw [show pnsGo acc ('\n' :: t) = acc.reverse :: pnsGo [] t from by
      rw [pnsGo.eq_def]
      simp] at hl
    rcases List.mem_cons.1 hl with rfl | hl2
    · simpa using hacc
    · exact ih rfl l hl2
  | case4 acc hrn =>
    intro hacc l hl
    rw [show pnsGo acc ['\r'] = [acc.reverse] from rfl] at hl
    simp only [List.mem_singleton] at hl
    subst hl
    simpa using hacc
  | case5 acc t2 hrn ih =>
    intro hacc l hl
    rw [show pnsGo acc ('\r' :: '\n' :: t2) = acc.reverse :: pnsGo [] t2
      from rfl] at hl
    rcases List.mem_cons.1 hl with rfl | hl2
    · simpa using hacc
    · exact ih rfl l hl2
  | case6 acc c2 t2 hc2 hrn ih =>
    intro hacc l hl
    rw [show pnsGo acc ('\r' :: c2 :: t2) = acc.reverse :: pnsGo [] (c2 :: t2)
      from by simp [pnsGo, hc2]] at hl
    rcases List.mem_cons.1 hl with rfl | hl2
    · simpa using hacc
    · exact ih rfl l hl2
  | case7 acc c t hn hr ih =>
    intro hacc l hl
    rw [show pnsGo acc (c :: t) = pnsGo (c :: acc) t from by
      rw [pnsGo.eq_def]
      simp only []
      rw [if_neg hn, if_neg hr]] at hl
    refine ih ?_ l hl
    simp only [List.all_cons, Bool.and_eq_true]
    exact ⟨by simp [nonTerm, hn, hr], hacc⟩

theorem activePatches_shape (series name : List Char)
    (h : name ∈ activePatches series) :
    name.all nonTerm = true ∧ name ≠ [] := by
  unfold activePatches at h
  rcases List.mem_filter.1 h with ⟨hmem, hcond⟩
  refine ⟨pnsGo_no_term [] series rfl name hmem, ?_⟩
  intro hn
  subst hn
  simp at hcond

theorem ciPrefix_append (pat : List Char) :
    ∀ (x r y : List Char), ciPrefix pat x = some r →
      ciPrefix pat (x ++ y) = some (r ++ y) := by
  induction pat with
  | nil =>
    intro x r y h
    simp only [ciPrefix, Option.some.injEq] at h
    subst h
    rfl
  | cons p ps ih =>
    intro x r y h
    cases x with
    | nil => simp [ciPrefix] at h
    | cons c cs =>
      simp only [ciPrefix] at h
      split_ifs at h with hc
      · rw [List.cons_append]
        simp only [ciPrefix]
        rw [if_pos hc]
        exact ih cs r y h

theorem takeWhile_append_all (p : Char → Bool) :
    ∀ (x y : List Char), x.all p = true →
      (x ++ y).takeWhile p = x ++ y.takeWhile p := by
  intro x y
  induction x with
  | nil => intro hx; rfl
  | cons c cs ih =>
    intro hx
    simp only [List.all_cons, Bool.and_eq_true] at hx
    rw [List.cons_append]
    simp [List.takeWhile_cons, hx.1, ih hx.2]

/-- C10: for every patch name read from the series file (and any saved
description), the first line of the commit message `pop` synthesizes fully
matches `PATCHDESC_RE`, the captured group 2 is a single space followed by
the name (so its trim equals the trimmed name), and the created commit is
classified as a Patch commit. -/
theorem pop_commit_message_is_patch (origseries name desc : List Char)
    (h : name ∈ activePatches origseries) :
    patchdescFullmatch (pyFirstLine (popCommitMessage name desc)) =
      some (' ' :: name) ∧
    pyStrip (' ' :: name) = pyStrip name ∧
    isquahogpatch (popCommitMessage name desc) = true := by
  obtain ⟨hnt, hne⟩ := activePatches_shape origseries name h
  have hfl : pyFirstLine (popCommitMessage name desc) =
      "DO NOT SUBMIT [PATCH] ".data ++ name := by
    unfold popCommitMessage pyFirstLine
    rw [List.append_assoc]
    rw [takeWhile_append_all nonTerm "DO NOT SUBMIT [PATCH] ".data _ (by decide)]
    rw [takeWhile_append_all nonTerm name _ hnt]
    have htail : (if desc.isEmpty then ([] : List Char)
        else '\n' :: '\n' :: desc).takeWhile nonTerm = [] := by
      cases hd : desc.isEmpty
      · rw [if_neg (by simp [hd])]
        rfl
      · rw [if_pos rfl]
        rfl
    rw [htail, List.append_nil]
  have hmain : patchdescFullmatch ("DO NOT SUBMIT [PATCH] ".data ++ name) =
      some (' ' :: name) := by
    have h1 : ciPrefix "do not submit".data "DO NOT SUBMIT".data = some [] := rfl
    have h2 : ciPrefix "do not submit".data
        ("DO NOT SUBMIT [PATCH] ".data ++ name) =
        some (" [PATCH] ".data ++ name) := by
      have hsplit : "DO NOT SUBMIT [PATCH] ".data ++ name =
          "DO NOT SUBMIT".data ++ (" [PATCH] ".data ++ name) := rfl
      rw [hsplit]
      simpa using ciPrefix_append "do not submit".data "DO NOT SUBMIT".data []
        (" [PATCH] ".data ++ name) h1
    have h3 : (" [PATCH] ".data ++ name).dropWhile pyIsSpace =
        "[PATCH] ".data ++ name := rfl
    have h4 : ciPrefix "[patch]".data ("[PATCH] ".data ++ name) =
        some (' ' :: name) := by
      have h5 : ciPrefix "[patch]".data "[PATCH]".data = some [] := rfl
      have hsplit : "[PATCH] ".data ++ name = "[PATCH]".data ++ (' ' :: name) := rfl
      rw [hsplit]
      simpa using ciPrefix_append "[patch]".data "[PATCH]".data []
        (' ' :: name) h5
    have h6 : g2Tail (' ' :: name) = some (' ' :: name) := by
      unfold g2Tail
      rw [if_pos (by simp [nonTerm, hnt])]
    unfold patchdescFullmatch
    rw [h2]
    simp only []
    rw [h3, h4]
    simp only []
    rw [h6]
  refine ⟨by rw [hfl]; exact hmain, ?_, ?_⟩
  · unfold pyStrip pyLstrip
    rw [show List.dropWhile pyIsSpace (' ' :: name) =
      List.dropWhile pyIsSpace name from rfl]
  · unfold isquahogpatch
    rw [hfl, hmain]
    rfl

/-- C10 witness: the name `b.diff` read from a two-entry series file. -/
theorem pop_commit_message_is_patch_witness :
    patchdescFullmatch (pyFirstLine (popCommitMessage "b.diff".data [])) =
      some (' ' :: "b.diff".data) ∧
    pyStrip (' ' :: "b.diff".data) = pyStrip "b.diff".data ∧
    isquahogpatch (popCommitMessage "b.diff".data []) = true :=
  pop_commit_message_is_patch "a.diff\nb.diff\n".data "b.diff".data []
    (by decide)

/-! ## Claim C8 (corrected): `_separatepatchdescription` on description + diff -/

theorem slGo_newline (acc t : List Char) :
    slGo acc ('\n' :: t) = (acc.reverse ++ ['\n']) :: slGo [] t := by
  rw [slGo.eq_def]
  simp

theorem slGo_cr_cons (acc : List Char) (c2 : Char) (t2 : List Char)
    (h : ¬c2 = '\n') :
    slGo acc ('\r' :: c2 :: t2) = (acc.reverse ++ ['\r']) :: slGo [] (c2 :: t2) := by
  rw [slGo.eq_def]
  simp [h]

theorem slGo_other (acc : List Char) (c : Char) (t : List Char)
    (hn : ¬c = '\n') (hr : ¬c = '\r') :
    slGo acc (c :: t) = slGo (c :: acc) t := by
  rw [slGo.eq_def]
  simp only []
  rw [if_neg hn, if_neg hr]

theorem slGo_push (w : List Char) :
    ∀ (t acc : List Char), w.all nonTerm = true →
      slGo acc (w ++ t) = slGo (w.reverse ++ acc) t := by
  induction w with
  | nil => intro t acc h; rfl
  | cons c cs ih =>
    intro t acc h
    simp only [List.all_cons, Bool.and_eq_true] at h
    have hn : ¬c = '\n' := by
      intro hc
      subst hc
      simp [nonTerm] at h
    have hr : ¬c = '\r' := by
      intro hc
      subst hc
      simp [nonTerm] at h
    rw [List.cons_append, slGo_other acc c (cs ++ t) hn hr, ih t (c :: acc) h.2]
    simp

theorem slGo_flatten : ∀ (acc t : List Char),
    (slGo acc t).flatten = acc.reverse ++ t := by
  intro acc t
  induction acc, t using slGo.induct with
  | case1 acc hemp =>
    have ha : acc = [] := by
      cases acc
      · rfl
      · simp at hemp
    subst ha
    rfl
  | case2 acc hemp =>
    rw [show slGo acc [] = [acc.reverse] from by simp [slGo, hemp]]
    simp
  | case3 acc t ih =>
    rw [slGo_newline]
    simp only [List.flatten_cons, ih]
    simp
  | case4 acc hrn =>
    rw [show slGo acc ['\r'] = [acc.reverse ++ ['\r']] from rfl]
    simp
  | case5 acc t2 hrn ih =>
    rw [show slGo acc ('\r' :: '\n' :: t2) = (acc.reverse ++ ['\r', '\n']) ::
      slGo [] t2 from rfl]
    simp only [List.flatten_cons, ih]
    simp
  | case6 acc c2 t2 hc2 hrn ih =>
    rw [slGo_cr_cons acc c2 t2 hc2]
    simp only [List.flatten_cons, ih]
    simp
  | case7 acc c t hn hr ih =>
    rw [slGo_other acc c t hn hr, ih]
    simp

theorem splitlinesKeep_split (d : List Char) :
    ∀ (y acc : List Char), d.all (fun c => !(c == '\r')) = true →
      slGo acc (d ++ '\n' :: y) = slGo acc (d ++ ['\n']) ++ slGo [] y := by
  induction d with
  | nil =>
    intro y acc h
    simp only [List.nil_append]
    rw [slGo_newline, slGo_newline]
    rfl
  | cons c cs ih =>
    intro y acc h
    simp only [List.all_cons, Bool.and_eq_true] at h
    have hr : ¬c = '\r' := by
      intro hc
      rw [hc] at h
      simp at h
    by_cases hn : c = '\n'
    · subst hn
      rw [List.cons_append, slGo_newline, List.cons_append, slGo_newline,
        ih y [] h.2]
      simp
    · rw [List.cons_append, slGo_other acc c _ hn hr, List.cons_append,
        slGo_other acc c _ hn hr, ih y (c :: acc) h.2]

theorem startsWith_append_left (m : List Char) :
    ∀ (x y : List Char), startsWith m x = true → startsWith m (x ++ y) = true := by
  induction m with
  | nil => intro x y h; rfl
  | cons p ps ih =>
    intro x y h
    cases x with
    | nil => simp [startsWith] at h
    | cons c cs =>
      simp only [startsWith, Bool.and_eq_true] at h
      rw [List.cons_append]
      simp only [startsWith, Bool.and_eq_true]
      exact ⟨h.1, ih cs y h.2⟩

theorem startsWith_takeWhile (m : List Char) :
    ∀ (s : List Char), m.all nonTerm = true → startsWith m s = true →
      startsWith m (s.takeWhile nonTerm) = true := by
  induction m with
  | nil => intro s hm h; rfl
  | cons p ps ih =>
    intro s hm h
    cases s with
    | nil => simp [startsWith] at h
    | cons c cs =>
      simp only [startsWith, Bool.and_eq_true] at h
      simp only [List.all_cons, Bool.and_eq_true] at hm
      have hpc : p = c := by
        have := h.1
        simpa using this
      have hcnt : nonTerm c = true := hpc ▸ hm.1
      rw [List.takeWhile_cons, hcnt]
      simp only [startsWith, Bool.and_eq_true]
      exact ⟨h.1, ih cs hm.2 h.2⟩

theorem dropWhile_head_false (p : Char → Bool) :
    ∀ (l : List Char) (c : Char) (t : List Char),
      l.dropWhile p = c :: t → p c = false := by
  intro l
  induction l with
  | nil => intro c t h; simp at h
  | cons a l2 ih =>
    intro c t h
    rw [List.dropWhile_cons] at h
    split_ifs at h with ha
    · exact ih c t h
    · cases h
      simpa using ha

theorem splitlinesKeep_head (s : List Char) (hs : s ≠ []) :
    ∃ ext rest2, splitlinesKeep s = (s.takeWhile nonTerm ++ ext) :: rest2 := by
  have hsplit : s = s.takeWhile nonTerm ++ s.dropWhile nonTerm := by
    rw [List.takeWhile_append_dropWhile]
  have hw : (s.takeWhile nonTerm).all nonTerm = true := by
    apply List.all_eq_true.2
    intro c hc
    exact List.mem_takeWhile_imp hc
  have h1 : splitlinesKeep s =
      slGo ((s.takeWhile nonTerm).reverse) (s.dropWhile nonTerm) := by
    unfold splitlinesKeep
    conv_lhs => rw [hsplit]
    rw [slGo_push _ _ [] hw, List.append_nil]
  rcases hd : s.dropWhile nonTerm with _ | ⟨c, t⟩
  · have hsw : s = s.takeWhile nonTerm := by
      conv_lhs => rw [hsplit]
      rw [hd, List.append_nil]
    have hwne : s.takeWhile nonTerm ≠ [] := by
      rw [← hsw]
      exact hs
    refine ⟨[], [], ?_⟩
    rw [h1, hd]
    rw [show slGo (s.takeWhile nonTerm).reverse [] =
      [(s.takeWhile nonTerm).reverse.reverse] from by
        simp [slGo, List.isEmpty_iff, hwne]]
    simp
  · have hc : nonTerm c = false := dropWhile_head_false nonTerm s c t hd
    have hc2 : c = '\n' ∨ c = '\r' := by
      have himp := by simpa [nonTerm] using hc
      by_cases hn : c = '\n'
      · exact Or.inl hn
      · exact Or.inr (himp hn)
    rw [h1, hd]
    rcases hc2 with rfl | rfl
    · refine ⟨['\n'], slGo [] t, ?_⟩
      rw [slGo_newline]
      simp
    · rcases t with _ | ⟨c2, t2⟩
      · refine ⟨['\r'], [], ?_⟩
        rw [show slGo (s.takeWhile nonTerm).reverse ['\r'] =
          [(s.takeWhile nonTerm).reverse.reverse ++ ['\r']] from rfl]
        simp
      · by_cases hc2n : c2 = '\n'
        · subst hc2n
          refine ⟨['\r', '\n'], slGo [] t2, ?_⟩
          rw [show slGo (s.takeWhile nonTerm).reverse ('\r' :: '\n' :: t2) =
            ((s.takeWhile nonTerm).reverse.reverse ++ ['\r', '\n']) ::
              slGo [] t2 from rfl]
          simp
        · refine ⟨['\r'], slGo [] (c2 :: t2), ?_⟩
          rw [slGo_cr_cons _ c2 t2 hc2n]
          simp

theorem sepGo_scan (dls : List (List Char)) :
    ∀ (rest : List (List Char)) (acc : List (List Char)),
      (∀ l ∈ dls, sepBreakLine l = false ∧ sepIndexLine l = false) →
      sepGo (dls ++ rest) acc = sepGo rest ((dls.map pyRstrip).reverse ++ acc) := by
  induction dls with
  | nil => intro rest acc h; rfl
  | cons line dls2 ih =>
    intro rest acc h
    have hline := h line (List.mem_cons_self line dls2)
    rw [List.cons_append]
    rw [show sepGo (line :: (dls2 ++ rest)) acc =
      sepGo (dls2 ++ rest) (pyRstrip line :: acc) from by
        simp [sepGo, hline.1, hline.2]]
    rw [ih rest (pyRstrip line :: acc)
      (fun l hl => h l (List.mem_cons_of_mem line hl))]
    simp

theorem nlJoin_append_nil (L : List (List Char)) (hL : L ≠ []) :
    nlJoin (L ++ [[]]) = nlJoin L ++ ['\n'] := by
  induction L with
  | nil => exact absurd rfl hL
  | cons x rest ih =>
    cases rest with
    | nil => rfl
    | cons y rest2 =>
      rw [show nlJoin ((x :: y :: rest2) ++ [[]]) =
        x ++ '\n' :: nlJoin ((y :: rest2) ++ [[]]) from rfl]
      rw [ih (by simp), show nlJoin (x :: y :: rest2) =
        x ++ '\n' :: nlJoin (y :: rest2) from rfl]
      simp

theorem pyRstrip_append_ws (x : List Char) (c : Char) (hc : pyIsSpace c = true) :
    pyRstrip (x ++ [c]) = pyRstrip x := by
  unfold pyRstrip
  rw [List.reverse_append]
  simp [List.dropWhile_cons, hc]

/-- C8 counterexample: the claim states the returned description differs
from the input description only by a trailing trim.  The scan right-strips
*each* description line individually, so `"a \nb"` comes back as `"a\nb"`,
not `rstrip("a \nb") = "a \nb"`.  Moreover, for a diff body starting with
`Index: ` (one of the claim's diff-start markers) the returned diff body
drops the `Index:` line and the following separator line, so it is not the
body with only a leading trim either. -/
theorem separate_desc_not_just_trailing_trim :
    separatepatchdescription ("a \nb".data ++ '\n' :: '\n' :: "--- x\n".data) =
      ("--- x\n".data, "a\nb".data) ∧
    "a\nb".data ≠ pyRstrip "a \nb".data ∧
    separatepatchdescription "d\n\nIndex: f\nsep\n--- y\n".data =
      ("--- y\n".data, "d".data) ∧
    "--- y\n".data ≠ pyLstrip "Index: f\nsep\n--- y\n".data := by decide

/-- C8 amended: for a `\r`-free description none of whose lines begins with
a diff-start marker, and a nonempty diff body whose first line begins with
one of the three break markers (`--- `, `diff --git`, `rename from` — an
`Index: ` body instead triggers the skip-two-lines path),
`separateDescription (description ++ "\n\n" ++ body)` returns the body
changed only by a leading trim, and the description with each line
right-trimmed, newline-joined, and right-trimmed as a whole (not merely a
trailing trim of the raw description). -/
theorem separate_round_trip (desc body : List Char)
    (hCR : desc.all (fun c => !(c == '\r')) = true)
    (hdesc : ∀ l ∈ splitlinesKeep (desc ++ ['\n']),
      sepBreakLine l = false ∧ sepIndexLine l = false)
    (hbody : body ≠ [])
    (hmark : sepBreakLine body = true) :
    separatepatchdescription (desc ++ '\n' :: '\n' :: body) =
      (pyLstrip body, descNormalize (desc ++ ['\n'])) := by
  have hs1 : splitlinesKeep (desc ++ '\n' :: '\n' :: body) =
      splitlinesKeep (desc ++ ['\n']) ++ ['\n'] :: splitlinesKeep body := by
    unfold splitlinesKeep
    rw [splitlinesKeep_split desc ('\n' :: body) [] hCR, slGo_newline]
    simp
  unfold separatepatchdescription
  rw [hs1]
  have hgrp : (splitlinesKeep (desc ++ ['\n']) ++ ['\n'] ::
      splitlinesKeep body) ++ [[]] =
      (splitlinesKeep (desc ++ ['\n']) ++ [['\n']]) ++
        (splitlinesKeep body ++ [[]]) := by
    simp
  rw [hgrp]
  have hd2 : ∀ l ∈ splitlinesKeep (desc ++ ['\n']) ++ [['\n']],
      sepBreakLine l = false ∧ sepIndexLine l = false := by
    intro l hl
    rcases List.mem_append.1 hl with h | h
    · exact hdesc l h
    · simp only [List.mem_singleton] at h
      subst h
      exact ⟨by decide, by decide⟩
  rw [sepGo_scan _ _ _ hd2]
  obtain ⟨ext, rest2, hhead⟩ := splitlinesKeep_head body hbody
  rw [hhead]
  have hbl : sepBreakLine (body.takeWhile nonTerm ++ ext) = true := by
    unfold sepBreakLine at hmark ⊢
    simp only [Bool.or_eq_true] at hmark ⊢
    rcases hmark with (h | h) | h
    · exact Or.inl (Or.inl (startsWith_append_left _ _ ext
        (startsWith_takeWhile _ body (by decide) h)))
    · exact Or.inl (Or.inr (startsWith_append_left _ _ ext
        (startsWith_takeWhile _ body (by decide) h)))
    · exact Or.inr (startsWith_append_left _ _ ext
        (startsWith_takeWhile _ body (by decide) h))
  rw [List.cons_append]
  rw [show sepGo ((body.takeWhile nonTerm ++ ext) :: (rest2 ++ [[]]))
      (((splitlinesKeep (desc ++ ['\n']) ++ [['\n']]).map pyRstrip).reverse ++ []) =
      (pyLstrip (List.flatten ((body.takeWhile nonTerm ++ ext) ::
        (rest2 ++ [[]]))),
       sepFinish (((splitlinesKeep (desc ++ ['\n']) ++
         [['\n']]).map pyRstrip).reverse ++ [])) from by
    simp [sepGo, hbl]]
  have hfst : List.flatten ((body.takeWhile nonTerm ++ ext) ::
      (rest2 ++ [[]])) = body := by
    rw [← List.cons_append, List.flatten_append]
    simp only [List.flatten_cons, List.flatten_nil, List.append_nil]
    rw [← List.flatten_cons, ← hhead]
    have hfl := slGo_flatten [] body
    simpa [splitlinesKeep] using hfl
  have hsnd : sepFinish (((splitlinesKeep (desc ++ ['\n']) ++
      [['\n']]).map pyRstrip).reverse ++ []) = descNormalize (desc ++ ['\n']) := by
    unfold sepFinish descNormalize
    rw [List.append_nil, List.reverse_reverse, List.map_append]
    rw [show List.map pyRstrip [['\n']] = [[]] from rfl]
    have hne : (splitlinesKeep (desc ++ ['\n'])).map pyRstrip ≠ [] := by
      intro hh
      have h0 : splitlinesKeep (desc ++ ['\n']) = [] := List.map_eq_nil_iff.1 hh
      have hfl := slGo_flatten [] (desc ++ ['\n'])
      rw [show slGo [] (desc ++ ['\n']) = splitlinesKeep (desc ++ ['\n'])
        from rfl, h0] at hfl
      simp at hfl
    rw [nlJoin_append_nil _ hne, pyRstrip_append_ws _ '\n' (by decide)]
  rw [hfst, hsnd]

/-- C8 witness: description `"a"` and body `"--- x\n"`. -/
theorem separate_round_trip_witness :
    separatepatchdescription ("a".data ++ '\n' :: '\n' :: "--- x\n".data) =
      (pyLstrip "--- x\n".data, descNormalize ("a".data ++ ['\n'])) :=
  separate_round_trip "a".data "--- x\n".data (by decide) (by decide)
    (by decide) (by decide)

/-- C6 counterexample: the claim states that (without `--rebase`, reusing an
existing base) the rebase-target set is exactly the non-public children of
the base.  The code evaluates `children(. & not public())`, which is empty
whenever the base itself is public — reachable via `--from` pointing at a
public quahog changeset, which `pop` accepts without a phase check — even
though the base may have non-public children. -/
theorem pop_rebase_public_base_differs :
    popRebaseRevs pubBaseGraph 0 false = [] ∧
    nonPublicChildren pubBaseGraph 0 = [1] ∧
    popRebaseRevs pubBaseGraph 0 false ≠ nonPublicChildren pubBaseGraph 0 := by decide

/-- C6 amended: when the resolved base is non-public the default
rebase-target set equals the set of all children of the base, which under
phase monotonicity is exactly its non-public children; when creating a new
base the set is empty.  (When the base is public the code's set is empty
even if non-public children exist.) -/
theorem pop_rebase_default_set (g : RepoGraph) (base : ℕ)
    (hm : PhasesMonotone g) (hb : g.isPublic base = false) :
    popRebaseRevs g base false = nonPublicChildren g base ∧
    popRebaseRevs g base true = [] := by
  refine ⟨?_, rfl⟩
  unfold popRebaseRevs nonPublicChildren
  rw [if_neg (by simp), hb]
  refine ((List.filter_eq_self).2 ?_).symm
  intro c hc
  unfold revChildren at hc
  rcases List.mem_filter.1 hc with ⟨hcm, hpar⟩
  rcases List.any_eq_true.1 hpar with ⟨p, hpmem, hp⟩
  have hpb : p = base := by simpa using hp
  subst hpb
  cases hpc : g.isPublic c with
  | false => simp
  | true => exact absurd (hm c p hcm hpmem hpc) (by simp [hb])

/-- C6 witness: the amended statement holds on `pubBaseGraph` at the
non-public base `1`. -/
theorem pop_rebase_default_set_witness :
    popRebaseRevs pubBaseGraph 1 false = nonPublicChildren pubBaseGraph 1 ∧
    popRebaseRevs pubBaseGraph 1 true = [] := by
  refine pop_rebase_default_set pubBaseGraph 1 ?_ (by decide)
  intro c p hc hp hpub
  simp only [pubBaseGraph, List.mem_cons, List.mem_singleton, List.not_mem_nil,
    or_false] at hc hp hpub
  rcases hc with rfl | rfl
  · simp at hp
  · simp at hpub

/-! ## Claim C7 (confirmed): implicit chain resolution in `fold` -/

theorem foldChainLoop_go (children : ℕ → List ℕ) (isPatch : ℕ → Bool)
    (foldall : Bool) (count fuel cur : ℕ) (acc : List ℕ)
    (hcond : (foldall || (acc.length != count)) = true) :
    foldChainLoop children isPatch foldall count (fuel + 1) cur acc =
      (if (patchKids children isPatch cur).length > 1 then .error ()
       else
         match patchKids children isPatch cur with
         | [] => .ok acc
         | c :: _ => foldChainLoop children isPatch foldall count fuel c
             (acc ++ [c])) := by
  simp only [foldChainLoop, hcond, if_true]

theorem foldChainLoop_stop (children : ℕ → List ℕ) (isPatch : ℕ → Bool)
    (foldall : Bool) (count fuel cur : ℕ) (acc : List ℕ)
    (hcond : (foldall || (acc.length != count)) = false) :
    foldChainLoop children isPatch foldall count (fuel + 1) cur acc = .ok acc := by
  simp only [foldChainLoop, hcond, Bool.false_eq_true, if_false]

theorem specWalk_go (children : ℕ → List ℕ) (isPatch : ℕ → Bool)
    (foldall : Bool) (count fuel cur : ℕ) (acc : List ℕ)
    (hcond : (!foldall && decide (count ≤ acc.length)) = false) :
    specWalk children isPatch foldall count (fuel + 1) cur acc =
      (match patchKids children isPatch cur with
       | [] => .ok acc
       | [c] => specWalk children isPatch foldall count fuel c (acc ++ [c])
       | _ => .error ()) := by
  simp only [specWalk, hcond, Bool.false_eq_true, if_false]

theorem specWalk_stop (children : ℕ → List ℕ) (isPatch : ℕ → Bool)
    (foldall : Bool) (count fuel cur : ℕ) (acc : List ℕ)
    (hcond : (!foldall && decide (count ≤ acc.length)) = true) :
    specWalk children isPatch foldall count (fuel + 1) cur acc = .ok acc := by
  simp only [specWalk, hcond, if_true]

theorem foldChainLoop_eq_specWalk (children : ℕ → List ℕ) (isPatch : ℕ → Bool)
    (foldall : Bool) (count : ℕ) :
    ∀ (fuel cur : ℕ) (acc : List ℕ), (foldall = false → acc.length ≤ count) →
      foldChainLoop children isPatch foldall count fuel cur acc =
        specWalk children isPatch foldall count fuel cur acc := by
  intro fuel
  induction fuel with
  | zero => intro cur acc h; rfl
  | succ m ih =>
    intro cur acc h
    cases foldall with
    | true =>
      rw [foldChainLoop_go _ _ _ _ _ _ _ (by simp),
        specWalk_go _ _ _ _ _ _ _ (by simp)]
      rcases hps : patchKids children isPatch cur with _ | ⟨c, t⟩
      · simp
      · rcases t with _ | ⟨c2, t2⟩
        · simp only [List.length_cons, List.length_nil]
          rw [if_neg (by omega)]
          exact ih c (acc ++ [c]) (by intro hf; cases hf)
        · simp only [List.length_cons]
          rw [if_pos (by omega)]
    | false =>
      have hacc := h rfl
      by_cases he : acc.length = count
      · rw [foldChainLoop_stop _ _ _ _ _ _ _ (by simp [he]),
          specWalk_stop _ _ _ _ _ _ _ (by simp [he])]
      · rw [foldChainLoop_go _ _ _ _ _ _ _ (by simp [he]),
          specWalk_go _ _ _ _ _ _ _ (by simp; omega)]
        rcases hps : patchKids children isPatch cur with _ | ⟨c, t⟩
        · simp
        · rcases t with _ | ⟨c2, t2⟩
          · simp only [List.length_cons, List.length_nil]
            rw [if_neg (by omega)]
            exact ih c (acc ++ [c]) (by intro hf; simp; omega)
          · simp only [List.length_cons]
            rw [if_pos (by omega)]

theorem foldChainLoop_post (children : ℕ → List ℕ) (isPatch : ℕ → Bool)
    (foldall : Bool) (count N : ℕ)
    (hinc : ∀ r c, c ∈ children r → r < c ∧ c < N) :
    ∀ (fuel cur : ℕ) (acc : List ℕ), N ≤ fuel + cur → cur < N →
      (foldall = false → acc.length ≤ count) →
      (∀ l, foldChainLoop children isPatch foldall count fuel cur acc = .ok l →
        ∃ tail, l = acc ++ tail ∧ IsChain children isPatch cur tail ∧
          (foldall = true →
            patchKids children isPatch (lastOf cur tail) = []) ∧
          (foldall = false → l.length ≤ count ∧
            (l.length < count →
              patchKids children isPatch (lastOf cur tail) = []))) ∧
      (foldChainLoop children isPatch foldall count fuel cur acc = .error () →
        ∃ tail, IsChain children isPatch cur tail ∧
          2 ≤ (patchKids children isPatch (lastOf cur tail)).length) := by
  intro fuel
  induction fuel with
  | zero =>
    intro cur acc h1 h2 h3
    omega
  | succ m ih =>
    intro cur acc h1 h2 h3
    by_cases hcond : (foldall || (acc.length != count)) = true
    · rw [foldChainLoop_go _ _ _ _ _ _ _ hcond]
      rcases hps : patchKids children isPatch cur with _ | ⟨c, t⟩
      · constructor
        · intro l hl
          simp at hl
          subst hl
          refine ⟨[], by simp, trivial, ?_, ?_⟩
          · intro _
            exact hps
          · intro hf
            exact ⟨by simpa using h3 hf, fun _ => hps⟩
        · intro hl
          simp at hl
      · rcases t with _ | ⟨c2, t2⟩
        · have hcc : c ∈ children cur := by
            have hm := List.mem_filter.1 (hps ▸ List.mem_singleton.2 rfl)
            exact hm.1
          have hb := hinc cur c hcc
          have hrec := ih c (acc ++ [c]) (by omega) hb.2 (by
            intro hf
            rw [hf] at hcond
            simp only [Bool.false_or, bne_iff_ne, ne_eq] at hcond
            have hc3 := h3 hf
            simp only [List.length_append, List.length_cons, List.length_nil]
            omega)
          simp only [List.length_cons, List.length_nil]
          rw [if_neg (by omega)]
          constructor
          · intro l hl
            rcases hrec.1 l hl with ⟨tail, hlt, hch, hfa, hfc⟩
            refine ⟨c :: tail, by simpa using hlt, ⟨hps, hch⟩, ?_, ?_⟩
            · intro hf
              simpa [lastOf] using hfa hf
            · intro hf
              rcases hfc hf with ⟨hle, hlast⟩
              exact ⟨hle, fun hltc => by simpa [lastOf] using hlast hltc⟩
          · intro hl
            rcases hrec.2 hl with ⟨tail, hch, hlen⟩
            exact ⟨c :: tail, ⟨hps, hch⟩, by simpa [lastOf] using hlen⟩
        · simp only [List.length_cons]
          rw [if_pos (by omega)]
          constructor
          · intro l hl
            cases hl
          · intro _
            refine ⟨[], trivial, ?_⟩
            rw [show lastOf cur ([] : List ℕ) = cur from rfl, hps]
            simp
    · have hcond2 : (foldall || (acc.length != count)) = false := by
        cases hx : (foldall || (acc.length != count))
        · rfl
        · exact absurd hx hcond
      rw [foldChainLoop_stop _ _ _ _ _ _ _ hcond2]
      simp only [Bool.or_eq_false_iff, bne_eq_false_iff_eq] at hcond2
      constructor
      · intro l hl
        simp only [Except.ok.injEq] at hl
        subst hl
        refine ⟨[], by simp, trivial, ?_, ?_⟩
        · intro hf
          rw [hf] at hcond2
          cases hcond2.1
        · intro hf
          exact ⟨by simp [hcond2.2], fun hltc => absurd hcond2.2 (by omega)⟩
      · intro hl
        simp at hl

/-- C7: implicit chain resolution walks downward from the resolved target
taking at each step the unique Patch-kind child.  The loop equals the
spec-described walk (abort on an ambiguous visited commit, stop at `count`
collected in count mode, otherwise at the first commit without a
Patch-kind child); a successful result is the unique Patch-child chain
with those stopping conditions; an abort exhibits a visited commit with at
least two Patch-kind children; and an empty resolved chain dispatches to
the warn-and-do-nothing action. -/
theorem fold_chain_resolution (children : ℕ → List ℕ) (isPatch : ℕ → Bool)
    (foldall : Bool) (count tgt N fuel : ℕ)
    (hinc : ∀ r c, c ∈ children r → r < c ∧ c < N)
    (htgt : tgt < N) (hfuel : N ≤ fuel + tgt) :
    foldResolveChain children isPatch foldall count tgt fuel =
      specWalk children isPatch foldall count fuel tgt [] ∧
    (∀ l, foldResolveChain children isPatch foldall count tgt fuel = .ok l →
      IsChain children isPatch tgt l ∧
      (foldall = true → patchKids children isPatch (lastOf tgt l) = []) ∧
      (foldall = false → l.length ≤ count ∧
        (l.length < count → patchKids children isPatch (lastOf tgt l) = []))) ∧
    (foldResolveChain children isPatch foldall count tgt fuel = .error () →
      ∃ tail, IsChain children isPatch tgt tail ∧
        2 ≤ (patchKids children isPatch (lastOf tgt tail)).length) ∧
    (foldResolveChain children isPatch foldall count tgt fuel = .ok [] →
      foldDispatch (foldResolveChain children isPatch foldall count tgt fuel) =
        .warnNoop) := by
  have hpost := foldChainLoop_post children isPatch foldall count N hinc fuel
    tgt [] hfuel htgt (by intro _; simp)
  refine ⟨?_, ?_, ?_, ?_⟩
  · exact foldChainLoop_eq_specWalk children isPatch foldall count fuel tgt []
      (by intro _; simp)
  · intro l hl
    rcases hpost.1 l hl with ⟨tail, hlt, hch, hfa, hfc⟩
    simp only [List.nil_append] at hlt
    subst hlt
    exact ⟨hch, hfa, hfc⟩
  · intro hl
    exact hpost.2 hl
  · intro hl
    unfold foldDispatch
    rw [hl]

/-- C7 witness: the three-commit line `0 → 1 → 2` with Patch commits `1`
and `2`, count mode with `count = 5`: the walk collects `[1, 2]` and stops
at the childless end. -/
theorem fold_chain_resolution_witness :
    foldResolveChain lineKids linePatch false 5 0 3 =
      specWalk lineKids linePatch false 5 3 0 [] ∧
    (∀ l, foldResolveChain lineKids linePatch false 5 0 3 = .ok l →
      IsChain lineKids linePatch 0 l ∧
      (false = true → patchKids lineKids linePatch (lastOf 0 l) = []) ∧
      (false = false → l.length ≤ 5 ∧
        (l.length < 5 → patchKids lineKids linePatch (lastOf 0 l) = []))) ∧
    (foldResolveChain lineKids linePatch false 5 0 3 = .error () →
      ∃ tail, IsChain lineKids linePatch 0 tail ∧
        2 ≤ (patchKids lineKids linePatch (lastOf 0 tail)).length) ∧
    (foldResolveChain lineKids linePatch false 5 0 3 = .ok [] →
      foldDispatch (foldResolveChain lineKids linePatch false 5 0 3) =
        .warnNoop) := by
  refine fold_chain_resolution lineKids linePatch false 5 0 3 3 ?_ (by decide)
    (by decide)
  intro r c h
  unfold lineKids at h
  split_ifs at h with h0 h1
  · simp only [List.mem_singleton] at h
    omega
  · simp only [List.mem_singleton] at h
    omega
  · simp at h

end Quahog
